import Mathlib

/-
Verification development for the extranet repository.

Part I embeds exconvnet/des_data (processing_utils.py, fetcher.py):
catalog processing, spatial matching of sightlines against DES catalog
objects, label generation, and the user-level fetch pipeline.

Part II embeds n2j/inference/inference_manager.py: the InferenceManager
cache-backed operations (get_bnn_kappa, get_true_kappa,
get_log_p_k_given_omega_int, run_mcmc_for_omega_post,
get_kappa_log_weights, reset_val_dataset).

Machine floats are modelled as exact rationals; a numpy float64 cell that
holds NaN or uninitialized np.empty memory is modelled as Option.none.
Fallible Python code (exceptions) is modelled with Except String.
-/

/-! ### Part I: exconvnet/des_data -/

/-- A numpy float64 value: none models NaN (e.g. np.mean of an empty list). -/
abbrev NpFloat := Option ℚ

/-- A raw DES catalog row: one star/galaxy, a vector of measured quantities.
Column 1 is ra, column 2 is dec, column 39 is MAG_AUTO_G. -/
abbrev DESRow := List ℚ

/-- Python indexing obj[i] on a sequence: raises IndexError out of range. -/
def getStrict (l : List ℚ) (i : ℕ) : Except String ℚ :=
  match l.get? i with
  | some v => .ok v
  | none => .error "IndexError: index out of range"

/-- Total access used where the embedding needs a default (rows are assumed
long enough by the callers; theorems carry explicit length hypotheses). -/
def objGet (obj : DESRow) (i : ℕ) : ℚ := obj.getD i 0

/-- Mapping a fallible function over a list, stopping at the first raise:
the evaluation order of a Python list comprehension. -/
def exceptMapList {α β : Type} (f : α → Except String β) : List α → Except String (List β)
  | [] => .ok []
  | a :: l => do
    let b ← f a
    let bs ← exceptMapList f l
    .ok (b :: bs)

/-- Decidable equality of Except results, so that concrete runs can be
checked by evaluation. -/
instance exceptDecEq {ε α : Type} [DecidableEq ε] [DecidableEq α] :
    DecidableEq (Except ε α) := fun a b =>
  match a, b with
  | .ok x, .ok y => if h : x = y then isTrue (by rw [h]) else isFalse (by simp [h])
  | .error e, .error g => if h : e = g then isTrue (by rw [h]) else isFalse (by simp [h])
  | .ok _, .error _ => isFalse (by simp)
  | .error _, .ok _ => isFalse (by simp)

/-- np.mean of a list of floats: the mean, or NaN (none) for an empty list. -/
def npMean (l : List ℚ) : NpFloat :=
  if l.length = 0 then none else some (l.sum / l.length)

/-- ylabel (processing_utils.py): generates the y label of one training
example as the mean of one column of the member objects, divided by 1000.
The body begins by reassigning IDX = 39 (MAG_AUTO_G), so the IDX argument
is discarded. np.mean of an empty list evaluates to NaN (with a
RuntimeWarning), not an exception; obj[IDX] raises IndexError when a row is
shorter than 40 entries. -/
def ylabel (x : List DESRow) (IDX : ℕ) : Except String NpFloat :=
  let IDX := 39
  (exceptMapList (fun obj => getStrict obj IDX) x).map
    (fun vals => (npMean vals).map (fun y => y / 1000))

/-- gen_labels (processing_utils.py): labels of all training examples;
ylabel is called with its default IDX = 39. -/
def gen_labels (X : List (List DESRow)) : Except String (List NpFloat) :=
  exceptMapList (fun x => ylabel x 39) X

/-- Squared Euclidean distance on the (ra, dec) plane.  The embedding works
with squared distances so that all arithmetic stays in ℚ; x within distance
r of c (r ≥ 0) is expressed as dist2 x c ≤ r ^ 2. -/
def dist2 (p q : ℚ × ℚ) : ℚ := (p.1 - q.1) ^ 2 + (p.2 - q.2) ^ 2

/-- strip2RAdec (processing_utils.py): the (ra, dec) pairs of all rows,
columns 1 and 2. -/
def strip2RAdec (arr : List DESRow) : List (ℚ × ℚ) :=
  arr.map (fun x => (objGet x 1, objGet x 2))

/-- KDTree.query_ball_point: indices of the points of the tree within
Euclidean distance r (inclusive) of p.  scipy returns the indices of a
single-point query in unspecified order; the embedding returns them in
catalog order. -/
def query_ball_point (tree : List (ℚ × ℚ)) (p : ℚ × ℚ) (r : ℚ) : List ℕ :=
  (List.range tree.length).filter (fun i => decide (dist2 (tree.getD i (0, 0)) p ≤ r ^ 2))

/-- np.array(value, dtype) where the dtype positional argument is a float
value: numpy rejects a float instance as a dtype specifier and raises
TypeError before the value argument is used. -/
def npArrayWithDtype (v dt : ℚ) : Except String ℚ :=
  .error "TypeError: Cannot interpret a float as a data type"

/-- The sort key lambda of get_x_i:
np.linalg.norm(np.array(x[1] - sightline[0], x[2] - sightline[1])).
The second positional argument of np.array is dtype, so the dec offset is
passed as a dtype and the call raises TypeError; np.linalg.norm is never
reached. -/
def sortKey (sightline : ℚ × ℚ) (x : DESRow) : Except String ℚ :=
  npArrayWithDtype (objGet x 1 - sightline.1) (objGet x 2 - sightline.2)

/-- Stable insertion of a keyed element: placed before the first element
whose key is not smaller. -/
def insertPair (x : ℚ × DESRow) : List (ℚ × DESRow) → List (ℚ × DESRow)
  | [] => [x]
  | y :: ys => if y.1 < x.1 then y :: insertPair x ys else x :: y :: ys

/-- Stable ascending sort of keyed elements. -/
def sortPairs : List (ℚ × DESRow) → List (ℚ × DESRow)
  | [] => []
  | x :: xs => insertPair x (sortPairs xs)

/-- Python sorted(l, key=k) with a fallible key: CPython evaluates the key
of every element before comparing, so a raise from any key evaluation
propagates; the empty list sorts without evaluating the key.  The sort is
stable and ascending. -/
def sortedByKey (key : DESRow → Except String ℚ) (l : List DESRow) :
    Except String (List DESRow) :=
  (exceptMapList (fun x => (key x).map (fun k => (k, x))) l).map
    (fun keyed => (sortPairs keyed).map (fun kx => kx.2))

/-- get_x_i (processing_utils.py): all catalog objects within THRESHOLD of
the sightline, then ordered with the distance sort key (which raises, see
sortKey).  tree is the coordinate list the KDTree was built on. -/
def get_x_i (sightline : ℚ × ℚ) (tree : List (ℚ × ℚ)) (arr : List DESRow)
    (THRESHOLD : ℚ) : Except String (List DESRow) :=
  let x_i := (query_ball_point tree sightline THRESHOLD).map (fun i => arr.getD i [])
  sortedByKey (sortKey sightline) x_i

/-- The default THRESHOLD of get_x_i: 0.0333333333 degrees (about 2
arcminutes), written as an exact rational. -/
def defaultTHRESHOLD : ℚ := 333333333 / 10000000000

/-- compute_X (processing_utils.py): builds the KDTree coordinates once and
matches every sightline. -/
def compute_X (arr : List DESRow) (sightlines : List (ℚ × ℚ)) :
    Except String (List (List DESRow)) :=
  let coords := strip2RAdec arr
  exceptMapList (fun sl => get_x_i sl coords arr defaultTHRESHOLD) sightlines

/-- fetch (fetcher.py).  The download, filtering and process_X stages live
in modules outside src/ and are abstracted by passing their result X
directly.  File saving is modelled only insofar as it evaluates its
arguments: with gen_Y=False the local variable Y is never assigned, and
np.save(os.path.join(save_path, y_fname), Y) raises NameError
(UnboundLocalError); with gen_Y=True the labels are computed by gen_labels
and (X, Y) is returned. -/
def fetch (X : List (List DESRow)) (gen_Y : Bool) :
    Except String (List (List DESRow) × List NpFloat) := do
  let Yvar ← if gen_Y then (gen_labels X).map (fun Y => some Y) else .ok none
  match Yvar with
  | none => .error "NameError: name Y is not defined"
  | some Y => .ok (X, Y)

/-! ### Part II: n2j/inference/inference_manager.py -/

/-- An n-dimensional numpy array value: a float cell (none models NaN or
uninitialized np.empty memory) or an array of sub-values, spelled as a
built-in cons-list (nil / cons) so that the type is a plain inductive and
all recursion over it is structural. -/
inductive NpVal where
  | f (q : Option ℚ)
  | nil
  | cons (hd tl : NpVal)
deriving DecidableEq

/-- An array node from the list of its elements. -/
def NpVal.ofList : List NpVal → NpVal
  | [] => .nil
  | x :: xs => .cons x (NpVal.ofList xs)

/-- The elements of an array node. -/
def NpVal.toList : NpVal → List NpVal
  | .f _ => []
  | .nil => []
  | .cons x t => x :: NpVal.toList t

/-- numpy .squeeze(): removes every axis of size one.  The flag says
whether the argument sits in head position (a whole axis, collapsed when it
has exactly one element) or is the tail of an axis already being mapped. -/
def NpVal.squeezeGo : Bool → NpVal → NpVal
  | _, .f q => .f q
  | _, .nil => .nil
  | true, .cons x .nil => NpVal.squeezeGo true x
  | true, .cons x t => .cons (NpVal.squeezeGo true x) (NpVal.squeezeGo false t)
  | false, .cons x t => .cons (NpVal.squeezeGo true x) (NpVal.squeezeGo false t)

/-- numpy .squeeze() of an array value. -/
def NpVal.squeeze (v : NpVal) : NpVal := NpVal.squeezeGo true v

/-- Indexing one axis: v[i] on an array; the junk default is never the
value of a well-formed indexing (numpy would raise IndexError out of
range). -/
def NpVal.item : NpVal → ℕ → NpVal
  | .cons x _, 0 => x
  | .cons _ t, n + 1 => NpVal.item t n
  | _, _ => .f none

/-- The float cell at position (i, j) of a 2-d array. -/
def NpVal.cell2 (v : NpVal) (i j : ℕ) : Option ℚ :=
  match (v.item i).item j with
  | .f q => q
  | _ => none

/-- The float cell at position (i, j, k) of a 3-d array. -/
def NpVal.cell3 (v : NpVal) (i j k : ℕ) : Option ℚ :=
  match ((v.item i).item j).item k with
  | .f q => q
  | _ => none

/-- The outermost length of an array (its number of rows). -/
def NpVal.numRows : NpVal → ℕ
  | .cons _ t => NpVal.numRows t + 1
  | _ => 0

/-- A squeezed 1-d array read back as a list of float cells (a squeezed
scalar counts as one cell, as a 0-d numpy array holds one value). -/
def NpVal.toFloatRow : NpVal → List (Option ℚ)
  | .f q => [q]
  | .nil => []
  | .cons x t => (match x with | .f q => q | _ => none) :: NpVal.toFloatRow t

/-- The deterministically named cache artifacts of one output directory.
Each constructor stands for one file-name family of the source:
k_bnn ↦ "k_bnn.npy"; k_true is_train add_suffix ↦ "k_train{suffix}.npy" or
"k_val{suffix}.npy"; log_p_k_given_omega_int ↦
"log_p_k_given_omega_int.npy"; log_weights idx ↦ "log_weights_{idx}.npy";
subsample_idx ↦ "subsample_idx.npy".  Two names collide exactly when the
constructors and their arguments agree, which is the distinctness the real
file names have. -/
inductive CachePath where
  | k_bnn
  | k_true (is_train : Bool) (add_suffix : String)
  | log_p_k_given_omega_int
  | log_weights (idx : ℕ)
  | subsample_idx
deriving DecidableEq

/-- The on-disk output directory: an association list of saved arrays.
np.save prepends (overwrites), os.path.exists / np.load query it. -/
structure FS where
  files : List (CachePath × NpVal)
deriving DecidableEq

def lookupList : List (CachePath × NpVal) → CachePath → Option NpVal
  | [], _ => none
  | e :: rest, p => if e.1 = p then some e.2 else lookupList rest p

/-- np.load when the artifact exists, none otherwise (os.path.exists). -/
def FS.load (fs : FS) (p : CachePath) : Option NpVal := lookupList fs.files p

/-- np.save: persist (overwrite) the artifact at path p. -/
def FS.save (fs : FS) (p : CachePath) (v : NpVal) : FS := ⟨(p, v) :: fs.files⟩

/-- The empty output directory. -/
def fsEmpty : FS := ⟨[]⟩

/-- The InferenceManager state after load_dataset, together with its
external collaborators (model, loaders, iutils, chain artifacts), which are
outside src/ and therefore abstracted as opaque functions:
n_train / n_val are the dataset sizes, bs the batch size (both loaders use
shuffle-independent fixed-size batches with drop_last=True), Y_dim the
number of targets, Y_mean / Y_std the de-standardization constants;
trainBatchY / valBatchY give the standardized y-vector of row b of batch i
of the respective loader; head e mc s t abstracts the sampled output of
model.global_nll.sample (already de-standardized by Y_mean, Y_std) for
example e, MC iterate mc, sample s, target t; ratioFn abstracts
iutils.get_log_p_k_given_omega_int, lwFn abstracts
iutils.get_kappa_log_weights, and mcmcSamples abstracts
iutils.get_mcmc_samples(chain_path, chain_kwargs). -/
structure Ctx where
  n_train : ℕ
  n_val : ℕ
  bs : ℕ
  Y_dim : ℕ
  Y_mean : List ℚ
  Y_std : List ℚ
  trainBatchY : ℕ → ℕ → List ℚ
  valBatchY : ℕ → ℕ → List ℚ
  head : ℕ → ℕ → ℕ → ℕ → ℚ
  ratioFn : NpVal → NpVal → NpVal
  lwFn : NpVal → NpVal → NpVal → NpVal
  mcmcSamples : NpVal

/-- A DataLoader with drop_last=True over n examples yields n / bs full
batches of exactly bs rows; the remainder n % bs is dropped. -/
def numFullBatches (n bs : ℕ) : ℕ := n / bs

/-- numpy basic-slice assignment rows[start : start + vals.length] = vals:
the clipped view must have exactly the length of vals, otherwise numpy
raises ValueError (could not broadcast). -/
def npSliceAssign {α : Type} (rows : List (Option α)) (start : ℕ) (vals : List α) :
    Except String (List (Option α)) :=
  if start + vals.length ≤ rows.length then
    .ok (rows.take start ++ vals.map some ++ rows.drop (start + vals.length))
  else .error "ValueError: could not broadcast input array"

/-- The batch loop shared by get_bnn_kappa and get_true_kappa: for batch
index i (k batches remaining), slice-assign the bs per-example values of
the batch at offset i * bs.  blk e is the value the loop computes for
global example e; batch i of a drop_last loader holds examples
i * bs, ..., i * bs + bs - 1. -/
def fillBatches {α : Type} (blk : ℕ → α) (bs : ℕ) :
    ℕ → ℕ → List (Option α) → Except String (List (Option α))
  | _, 0, rows => .ok rows
  | i, k + 1, rows => do
    let rows2 ← npSliceAssign rows (i * bs) ((List.range bs).map (fun b => blk (i * bs + b)))
    fillBatches blk bs (i + 1) k rows2

/-- The sampling output accumulated for one example: entry [mc][s][t]. -/
abbrev MCBlock := List (List (List ℚ))

/-- The n_mc_dropout × n_samples block of example e, as produced by the MC
dropout loop of get_bnn_kappa. -/
def mcBlock (head : ℕ → ℕ → ℕ → ℕ → ℚ) (n_mc n_s Y_dim e : ℕ) : MCBlock :=
  (List.range n_mc).map (fun mc =>
    (List.range n_s).map (fun s =>
      (List.range Y_dim).map (fun t => head e mc s t)))

/-- samples.transpose(0, 3, 1, 2).reshape([n_test, Y_dim, -1]): the output
cell (e, t, j) with j = mc * n_s + s holds samples[e][mc][s][t]; a row the
batch loop never wrote (np.empty memory) yields cells with no defined
value. -/
def bnnFinalize (rows : List (Option MCBlock)) (n_mc n_s Y_dim : ℕ) : NpVal :=
  .ofList (rows.map (fun orow =>
    .ofList ((List.range Y_dim).map (fun t =>
      .ofList ((List.range (n_mc * n_s)).map (fun j =>
        NpVal.f (match orow with
                 | none => none
                 | some blk => ((blk.getD (j / n_s) []).getD (j % n_s) []).get? t)))))))

/-- The computation of get_bnn_kappa on a cache miss: allocate
np.empty([n_test, n_mc, n_s, Y_dim]) with n_test = len(val_dataset), loop
over the val_loader batches writing samples[i*B : (i+1)*B], then transpose
and merge the two sampling axes. -/
def bnnBody (c : Ctx) (n_samples n_mc_dropout : ℕ) : Except String NpVal := do
  let rows ← fillBatches (mcBlock c.head n_mc_dropout n_samples c.Y_dim) c.bs 0
      (numFullBatches c.n_val c.bs) (List.replicate c.n_val (none : Option MCBlock))
  .ok (bnnFinalize rows n_mc_dropout n_samples c.Y_dim)

/-- get_bnn_kappa (inference_manager.py): if k_bnn.npy exists, load and
return it; otherwise compute, save and return.  The Bool component records
whether the sampling computation ran on this call. -/
def get_bnn_kappa (c : Ctx) (n_samples n_mc_dropout : ℕ) (fs : FS) :
    Except String (NpVal × FS × Bool) :=
  match fs.load .k_bnn with
  | some v => .ok (v, fs, false)
  | none => do
    let v ← bnnBody c n_samples n_mc_dropout
    .ok (v, fs.save .k_bnn v, true)

/-- De-standardization batch.y * Y_std + Y_mean, elementwise per target. -/
def destandardize (Y_std Y_mean y : List ℚ) : List ℚ :=
  List.zipWith (fun yv p => yv * p.1 + p.2) y (List.zip Y_std Y_mean)

/-- The de-standardized label vector the get_true_kappa loop writes for
global example e of the chosen loader (example e sits at row e % bs of
batch e / bs). -/
def trueRowVal (c : Ctx) (is_train : Bool) (e : ℕ) : List ℚ :=
  destandardize c.Y_std c.Y_mean
    (if is_train then c.trainBatchY (e / c.bs) (e % c.bs)
     else c.valBatchY (e / c.bs) (e % c.bs))

/-- The filled rows viewed as the returned 2-d array; a row the loop never
wrote is np.empty memory (cells with no defined value). -/
def trueFinalize (rows : List (Option (List ℚ))) (Y_dim : ℕ) : NpVal :=
  .ofList (rows.map (fun orow =>
    .ofList (match orow with
        | none => (List.range Y_dim).map (fun _ => NpVal.f none)
        | some r => r.map (fun q => NpVal.f (some q)))))

/-- get_true_kappa (inference_manager.py): caches at k_{train|val}{suffix}.npy.
The source allocates the output with n_test = len(self.val_dataset) rows
regardless of is_train (the allocation below is List.replicate c.n_val even
on the train branch, mirroring that bug), while iterating over the loader
selected by is_train. -/
def get_true_kappa (c : Ctx) (is_train : Bool) (add_suffix : String) (save : Bool)
    (fs : FS) : Except String (NpVal × FS × Bool) :=
  match fs.load (.k_true is_train add_suffix) with
  | some v => .ok (v, fs, false)
  | none => do
    let loaderN := if is_train then c.n_train else c.n_val
    let rows ← fillBatches (trueRowVal c is_train) c.bs 0
        (numFullBatches loaderN c.bs) (List.replicate c.n_val (none : Option (List ℚ)))
    let v := trueFinalize rows c.Y_dim
    .ok (v, if save then fs.save (.k_true is_train add_suffix) v else fs, true)

/-- get_log_p_k_given_omega_int (inference_manager.py): cached at
log_p_k_given_omega_int.npy; on a miss computes k_train and k_bnn through
their own cached getters and applies iutils.get_log_p_k_given_omega_int
(abstracted as c.ratioFn) to their squeezed values. -/
def get_log_p_k_given_omega_int (c : Ctx) (n_samples n_mc_dropout : ℕ) (fs : FS) :
    Except String (NpVal × FS × Bool) :=
  match fs.load .log_p_k_given_omega_int with
  | some v => .ok (v, fs, false)
  | none => do
    let (k_train, fs1, _) ← get_true_kappa c true "" true fs
    let (k_bnn, fs2, _) ← get_bnn_kappa c n_samples n_mc_dropout fs1
    let v := c.ratioFn k_train.squeeze k_bnn.squeeze
    .ok (v, fs2.save .log_p_k_given_omega_int v, true)

/-- get_kappa_log_weights (inference_manager.py): computes its output path
log_weights_{idx}.npy but never checks it for an existing artifact; on
every call it recomputes the weights from k_bnn[idx, :], the omega chain
samples and log_p_k_given_omega_int[idx, :], saves and returns them.  The
Bool component records that the weight computation ran. -/
def get_kappa_log_weights (c : Ctx) (idx n_samples n_mc_dropout : ℕ) (fs : FS) :
    Except String (NpVal × FS × Bool) := do
  let path : CachePath := .log_weights idx
  let (k_bnn, fs1, _) ← get_bnn_kappa c n_samples n_mc_dropout fs
  let (log_p, fs2, _) ← get_log_p_k_given_omega_int c n_samples n_mc_dropout fs1
  let log_weights := c.lwFn (k_bnn.item idx) c.mcmcSamples (log_p.item idx)
  .ok (log_weights, fs2.save path log_weights, true)

/-- The arguments run_mcmc_for_omega_post hands to iutils.get_omega_post;
the bounds default to -np.inf / np.inf (modelled as none). -/
structure MCMCCall where
  k_bnn : NpVal
  log_p_k_given_omega_int : NpVal
  bounds_lower : Option ℚ
  bounds_upper : Option ℚ
deriving DecidableEq

/-- run_mcmc_for_omega_post (inference_manager.py): computes k_bnn and
log_p_k_given_omega_int, invokes iutils.get_omega_post(k_bnn,
log_p_k_given_omega_int, mcmc_kwargs, bounds_lower, bounds_upper) — whose
value is discarded — and falls off the end of the function body, so the
Python return value is None.  The first component models that return value
and is always none; the MCMCCall component records the get_omega_post
invocation. -/
def run_mcmc_for_omega_post (c : Ctx) (n_samples n_mc_dropout : ℕ)
    (bounds_lower bounds_upper : Option ℚ) (fs : FS) :
    Except String (Option NpVal × MCMCCall × FS) := do
  let (k_bnn, fs1, _) ← get_bnn_kappa c n_samples n_mc_dropout fs
  let (log_p, fs2, _) ← get_log_p_k_given_omega_int c n_samples n_mc_dropout fs1
  .ok (none, ⟨k_bnn, log_p, bounds_lower, bounds_upper⟩, fs2)

/-- One step of a linear congruential generator, standing in for the PCG64
stream behind np.random.default_rng. -/
def lcgNext (s : ℕ) : ℕ := (s * 1103515245 + 12345) % 2147483648

/-- Selection without replacement: size picks from the pool, each step
removing the picked element. -/
def pickLoop : ℕ → List ℕ → ℕ → List ℕ
  | _, _, 0 => []
  | s, pool, k + 1 =>
    if pool.length = 0 then []
    else
      let i := s % pool.length
      pool.getD i 0 :: pickLoop (lcgNext s) (pool.eraseIdx i) k

/-- Modelled numpy Generator.choice over np.arange(n) with p=p,
replace=False, size=size: a deterministic selection of size distinct
indices below n, keyed by the generator seed, raising ValueError when size
exceeds the population, as numpy does.  The weight vector p only shapes the
real sampling distribution, which the embedding does not model; determinism
in the seed, distinctness and range membership are modelled. -/
def npChoiceNoReplace (seed n : ℕ) (p : List ℚ) (size : ℕ) : Except String (List ℕ) :=
  if size ≤ n then .ok (pickLoop (lcgNext seed) (List.range n) size)
  else .error "ValueError: cannot take a larger sample than population when replace is False"

/-- p /= np.sum(p). -/
def normalizeW (l : List ℚ) : List ℚ := l.map (fun v => v / l.sum)

/-- Subsample indices persisted as a 1-d integer array. -/
def encodeIdx (l : List ℕ) : NpVal := .ofList (l.map (fun i => NpVal.f (some (i : ℚ))))

/-- Reading subsample_idx.npy back (.tolist()). -/
def decodeIdx : NpVal → List ℕ
  | .cons (.f (some q)) t => q.num.toNat :: decodeIdx t
  | .cons _ t => 0 :: decodeIdx t
  | _ => []

/-- reset_val_dataset (inference_manager.py): rng = np.random.default_rng(123)
— the seed is the literal 123 and does not depend on manager_seed
(self.seed), which the body below consequently never uses.  y_val is the
squeezed k_valorig array; if subsample_idx.npy exists its indices are
loaded, otherwise p = subsample_pdf_func(y_val) / kde.pdf(y_val) is
normalized (pdfFn and kdeFn abstract the two externally fitted density
callables) and n_val_sub indices are drawn without replacement and saved. -/
def reset_val_dataset (c : Ctx) (manager_seed : ℕ)
    (pdfFn kdeFn : List (Option ℚ) → List ℚ) (n_val_sub : ℕ) (fs : FS) :
    Except String (List ℕ × FS) := do
  let rngSeed := 123
  let (y_val_arr, fs1, _) ← get_true_kappa c false "orig" true fs
  let y_val := y_val_arr.squeeze.toFloatRow
  match fs1.load .subsample_idx with
  | some v => .ok (decodeIdx v, fs1)
  | none => do
    let p := normalizeW (List.zipWith (fun a b => a / b) (pdfFn y_val) (kdeFn y_val))
    let subsample_idx ← npChoiceNoReplace rngSeed y_val.length p n_val_sub
    .ok (subsample_idx, fs1.save .subsample_idx (encodeIdx subsample_idx))

/-! ### Concrete instances used by the concrete-run theorems -/

/-- A 3-object toy catalog: ra in column 1, dec in column 2. -/
def desCatalog3 : List DESRow := [[0, 5, 5], [0, 6, 5], [0, 8, 5]]

/-- A tiny but fully concrete manager state shared by the concrete runs:
one train and one test example, batch size 1, a single target, constant
sampling head, identity-like abstract iutils callables. -/
def cW : Ctx := ⟨1, 1, 1, 1, [0], [1], fun _ _ => [0], fun _ _ => [0],
  fun _ _ _ _ => 0, fun a _ => a, fun a _ _ => a, NpVal.f none⟩

/-- The k_bnn array of the cW runs: shape [1, 1, 1]. -/
def vB : NpVal := .ofList [.ofList [.ofList [.f (some 0)]]]

/-- The k_train / k_val array of the cW runs: shape [1, 1]. -/
def vT : NpVal := .ofList [.ofList [.f (some 0)]]

/-- The log_p_k_given_omega_int value of the cW runs. -/
def v3 : NpVal := .f (some 0)

/-- An output directory already holding the k_bnn, k_train, k_val and
log_p_k_given_omega_int artifacts of the cW runs. -/
def fsAll : FS := ⟨[(.k_bnn, vB), (.k_true true "", vT), (.k_true false "", vT),
  (.log_p_k_given_omega_int, v3)]⟩

/-- The fully-sampled BNN output of shape [n_val][Y_dim][nmc * ns]: cell
(e, t, j) with j = mc * ns + s holds the sample of example e, MC iterate
mc = j / ns, sample s = j % ns, target t — every cell defined. -/
def bnnFull (c : Ctx) (ns nmc : ℕ) : NpVal :=
  .ofList ((List.range c.n_val).map (fun e =>
    .ofList ((List.range c.Y_dim).map (fun t =>
      .ofList ((List.range (nmc * ns)).map (fun j =>
        NpVal.f (some (c.head e (j / ns) (j % ns) t))))))))

/-- A manager state with three test examples and batch size two, whose val
loader (drop_last=True) yields one full batch and drops example 2; the
sampling head tags each example with a distinct constant. -/
def cCex : Ctx := ⟨3, 3, 2, 1, [0], [1], fun _ _ => [0], fun _ _ => [0],
  fun e _ _ _ => if e = 0 then 0 else if e = 1 then 1 else 2,
  fun a _ => a, fun a _ _ => a, NpVal.f none⟩

/-- A manager state with 2 train examples, 4 test examples, batch size 2. -/
def cC3 : Ctx := ⟨2, 4, 2, 1, [0], [1], fun _ _ => [0], fun _ _ => [0],
  fun _ _ _ _ => 0, fun a _ => a, fun a _ _ => a, NpVal.f none⟩

/-- A manager state with three test examples for the subsampling run. -/
def cC10 : Ctx := ⟨3, 3, 1, 1, [0], [1], fun _ _ => [0], fun _ _ => [0],
  fun _ _ _ _ => 0, fun a _ => a, fun a _ _ => a, NpVal.f none⟩

/-- A concrete k_valorig artifact holding the three test-set labels. -/
def vOrig : NpVal := .ofList [.ofList [.f (some 1)], .ofList [.f (some 2)],
  .ofList [.f (some 3)]]

/-- An output directory holding only the k_valorig artifact. -/
def fsW10 : FS := ⟨[(.k_true false "orig", vOrig)]⟩

/-! ### Theorems, Part I -/

theorem exceptMapList_ok_of {α β : Type} (f : α → Except String β) (g : α → β) :
    ∀ l : List α, (∀ a ∈ l, f a = .ok (g a)) → exceptMapList f l = .ok (l.map g)
  | [], _ => rfl
  | a :: l, h => by
    have ha := h a (List.mem_cons_self a l)
    have hl := exceptMapList_ok_of f g l (fun x hx => h x (List.mem_cons_of_mem a hx))
    simp [exceptMapList, ha, hl, Bind.bind, Except.bind]

/-- C7: for every non-empty example x and every value of the IDX argument,
ylabel(x, IDX) equals the mean of feature index 39 across all objects in x
divided by 1000; the statement quantifies over IDX while the right-hand
side mentions only column 39, so the feature index and the scale constant
are fixed and not tunable at call time. -/
theorem ylabel_fixed_feature_and_scale (x : List DESRow) (IDX : ℕ)
    (hne : x ≠ []) (hlen : ∀ o ∈ x, 39 < o.length) :
    ylabel x IDX = .ok (some ((x.map (fun o => objGet o 39)).sum / (x.length : ℚ) / 1000)) := by
  have hmap : exceptMapList (fun obj => getStrict obj 39) x =
      .ok (x.map (fun o => objGet o 39)) := by
    apply exceptMapList_ok_of
    intro o ho
    have h39 := hlen o ho
    cases hq : o.get? 39 with
    | none =>
      have := List.get?_eq_none.mp hq
      omega
    | some v =>
      rw [List.get?_eq_getElem?] at hq
      simp [getStrict, objGet, hq, List.getD, List.get?_eq_getElem?]
  show (exceptMapList (fun obj => getStrict obj 39) x).map
      (fun vals => (npMean vals).map (fun y => y / 1000)) =
    .ok (some ((x.map (fun o => objGet o 39)).sum / (x.length : ℚ) / 1000))
  rw [hmap]
  have hlen0 : ¬((x.map (fun o => objGet o 39)).length = 0) := by
    simp only [List.length_map, List.length_eq_zero]
    exact hne
  simp [Except.map, npMean, hlen0, hne]

theorem ylabel_fixed_feature_and_scale_witness :
    ylabel [List.replicate 40 (2 : ℚ)] 7 = .ok (some (1 / 500)) := by
  have h := ylabel_fixed_feature_and_scale [List.replicate 40 (2 : ℚ)] 7 (by decide)
    (by intro o ho; rw [List.mem_singleton] at ho; subst ho; decide)
  rw [h]
  have h2 : objGet (List.replicate 40 (2 : ℚ)) 39 = 2 := by decide
  norm_num [h2]

/-- C5 counterexample: on the empty MatchedSet, ylabel returns normally
with value NaN (np.mean of an empty list), it does not raise; in
particular no EmptyExampleError (which exists nowhere in the code) is
raised. -/
theorem ylabel_empty_nan_cex : ylabel [] 39 = .ok none := rfl

/-- C5 (amended): for every IDX, ylabel on an empty MatchedSet returns the
NaN value produced by np.mean of an empty list instead of raising
EmptyExampleError or any other exception. -/
theorem ylabel_empty_no_raise (IDX : ℕ) : ylabel [] IDX = .ok none := rfl

/-- C4: evaluating get_x_i on a 3-object catalog with a sightline that
coincides with the first object (so the matched set is non-empty) raises
TypeError: the sort key passes the dec offset as the dtype argument of
np.array — the missing list brackets make the result unsorted-by-distance
impossible; the call never returns a matched set at all. -/
theorem get_x_i_sortkey_TypeError :
    get_x_i (5, 5) (strip2RAdec desCatalog3) desCatalog3 10 =
      .error "TypeError: Cannot interpret a float as a data type" := by
  norm_num [get_x_i, query_ball_point, strip2RAdec, desCatalog3, dist2, objGet,
    List.range_succ, sortedByKey, sortKey, npArrayWithDtype, exceptMapList,
    Bind.bind, Except.bind, Except.map]

theorem query_ball_point_within (tree : List (ℚ × ℚ)) (p : ℚ × ℚ) (r : ℚ) :
    ∀ i ∈ query_ball_point tree p r, dist2 (tree.getD i (0, 0)) p ≤ r ^ 2 := by
  intro i hi
  unfold query_ball_point at hi
  rw [List.mem_filter] at hi
  exact of_decide_eq_true hi.2

theorem sortedByKey_sortKey_ok (sl : ℚ × ℚ) (l : List DESRow) (res : List DESRow)
    (h : sortedByKey (sortKey sl) l = .ok res) : l = [] ∧ res = [] := by
  cases l with
  | nil =>
    refine ⟨rfl, ?_⟩
    simpa [sortedByKey, exceptMapList, sortPairs, Except.map] using h.symm
  | cons a as =>
    exfalso
    simp [sortedByKey, exceptMapList, sortKey, npArrayWithDtype, Except.map,
      Bind.bind, Except.bind] at h

/-- C6: every object of a matched set returned by get_x_i lies within the
angular radius THRESHOLD of the sightline: the query_ball_point filter only
selects catalog indices within the radius, and whenever get_x_i returns a
matched set, each member's (ra, dec) is within the radius of the
sightline. -/
theorem get_x_i_within_radius (arr : List DESRow) (sl : ℚ × ℚ) (r : ℚ) (l : List DESRow)
    (hok : get_x_i sl (strip2RAdec arr) arr r = .ok l) :
    (∀ i ∈ query_ball_point (strip2RAdec arr) sl r,
        dist2 ((strip2RAdec arr).getD i (0, 0)) sl ≤ r ^ 2) ∧
    ∀ x ∈ l, dist2 (objGet x 1, objGet x 2) sl ≤ r ^ 2 := by
  refine ⟨query_ball_point_within _ _ _, ?_⟩
  unfold get_x_i at hok
  obtain ⟨-, hres⟩ := sortedByKey_sortKey_ok sl _ l hok
  subst hres
  intro x hx
  exact absurd hx (List.not_mem_nil x)

theorem get_x_i_within_radius_witness :
    (∀ i ∈ query_ball_point (strip2RAdec desCatalog3) (100, 100) 1,
        dist2 ((strip2RAdec desCatalog3).getD i (0, 0)) (100, 100) ≤ 1 ^ 2) ∧
    ∀ x ∈ ([] : List DESRow), dist2 (objGet x 1, objGet x 2) (100, 100) ≤ 1 ^ 2 :=
  get_x_i_within_radius desCatalog3 (100, 100) 1 [] (by
    norm_num [get_x_i, query_ball_point, strip2RAdec, desCatalog3, dist2, objGet,
      List.range_succ, sortedByKey, sortKey, npArrayWithDtype, exceptMapList,
      Bind.bind, Except.bind, Except.map, sortPairs])

/-- C9: fetch with gen_Y=False raises NameError — the save step references
the variable Y, which the skipped branch never assigned — and with
gen_Y=True it completes (whenever label generation does) and returns
(X, gen_labels X); in particular it returns a pair only when gen_Y is
true. -/
theorem fetch_genY_behavior (X : List (List DESRow)) :
    fetch X false = .error "NameError: name Y is not defined" ∧
    fetch X true = (gen_labels X).map (fun Y => (X, Y)) := by
  constructor
  · rfl
  · unfold fetch
    cases h : gen_labels X with
    | error e => simp [h, Except.map, Bind.bind, Except.bind]
    | ok Y => simp [h, Except.map, Bind.bind, Except.bind]

/-! ### Theorems, Part II: cache and batch-loop machinery -/

theorem FS.load_save_same (fs : FS) (p : CachePath) (v : NpVal) :
    (fs.save p v).load p = some v := by
  simp [FS.save, FS.load, lookupList]

theorem FS.load_save_ne (fs : FS) (p q : CachePath) (v : NpVal) (h : q ≠ p) :
    (fs.save q v).load p = fs.load p := by
  simp [FS.save, FS.load, lookupList, h]

theorem npSliceAssign_ok {α : Type} (rows : List (Option α)) (start : ℕ) (vals : List α)
    (h : start + vals.length ≤ rows.length) :
    npSliceAssign rows start vals =
      .ok (rows.take start ++ vals.map some ++ rows.drop (start + vals.length)) := by
  simp [npSliceAssign, h]

theorem npSliceAssign_len {α : Type} (rows : List (Option α)) (start : ℕ) (vals : List α)
    (h : start + vals.length ≤ rows.length) :
    (rows.take start ++ vals.map some ++ rows.drop (start + vals.length)).length
      = rows.length := by
  simp only [List.length_append, List.length_take, List.length_map, List.length_drop]
  omega

theorem fillBatches_ok {α : Type} (blk : ℕ → α) (bs : ℕ) :
    ∀ (k i : ℕ) (rows : List (Option α)), (i + k) * bs ≤ rows.length →
      ∃ rows2, fillBatches blk bs i k rows = .ok rows2 ∧ rows2.length = rows.length := by
  intro k
  induction k with
  | zero => exact fun i rows _ => ⟨rows, rfl, rfl⟩
  | succ k ih =>
    intro i rows h
    have hb : i * bs + ((List.range bs).map (fun b => blk (i * bs + b))).length
        ≤ rows.length := by
      simp only [List.length_map, List.length_range]
      have h1 : (i + 1) * bs ≤ (i + (k + 1)) * bs := Nat.mul_le_mul_right _ (by omega)
      calc i * bs + bs = (i + 1) * bs := by ring
        _ ≤ rows.length := le_trans h1 h
    obtain ⟨rows2, h2, hlen2⟩ := ih (i + 1)
      (rows.take (i * bs) ++ ((List.range bs).map (fun b => blk (i * bs + b))).map some ++
        rows.drop (i * bs + ((List.range bs).map (fun b => blk (i * bs + b))).length))
      (by rw [npSliceAssign_len _ _ _ hb]
          calc (i + 1 + k) * bs = (i + (k + 1)) * bs := by ring
            _ ≤ rows.length := h)
    refine ⟨rows2, ?_, ?_⟩
    · simp only [fillBatches, npSliceAssign_ok _ _ _ hb, Bind.bind, Except.bind]
      exact h2
    · rw [hlen2, npSliceAssign_len _ _ _ hb]

theorem bnnBody_ok (c : Ctx) (ns nmc : ℕ) : ∃ v, bnnBody c ns nmc = .ok v := by
  obtain ⟨rows, hr, -⟩ := fillBatches_ok (mcBlock c.head nmc ns c.Y_dim) c.bs
    (numFullBatches c.n_val c.bs) 0 (List.replicate c.n_val none)
    (by simpa [numFullBatches] using Nat.div_mul_le_self c.n_val c.bs)
  refine ⟨bnnFinalize rows nmc ns c.Y_dim, ?_⟩
  simp [bnnBody, hr, Bind.bind, Except.bind]

theorem get_bnn_kappa_cached (c : Ctx) (ns nmc : ℕ) (fs : FS) (v : NpVal)
    (h : fs.load .k_bnn = some v) :
    get_bnn_kappa c ns nmc fs = .ok (v, fs, false) := by
  simp [get_bnn_kappa, h]

theorem get_bnn_kappa_ok_load (c : Ctx) (ns nmc : ℕ) (fs : FS) (r : NpVal) (fs2 : FS)
    (i : Bool) (h : get_bnn_kappa c ns nmc fs = .ok (r, fs2, i)) :
    fs2.load .k_bnn = some r := by
  unfold get_bnn_kappa at h
  cases hl : fs.load .k_bnn with
  | some v =>
    rw [hl] at h
    simp only [Except.ok.injEq, Prod.mk.injEq] at h
    rw [← h.2.1, ← h.1]
    exact hl
  | none =>
    rw [hl] at h
    obtain ⟨v, hv⟩ := bnnBody_ok c ns nmc
    rw [hv] at h
    simp only [Bind.bind, Except.bind, Except.ok.injEq, Prod.mk.injEq] at h
    rw [← h.2.1, ← h.1]
    exact FS.load_save_same fs .k_bnn v

theorem get_true_kappa_cached (c : Ctx) (it sv : Bool) (suf : String) (fs : FS) (v : NpVal)
    (h : fs.load (.k_true it suf) = some v) :
    get_true_kappa c it suf sv fs = .ok (v, fs, false) := by
  simp [get_true_kappa, h]

theorem get_true_kappa_ok_load (c : Ctx) (it : Bool) (suf : String) (fs : FS) (r : NpVal)
    (fs2 : FS) (i : Bool) (h : get_true_kappa c it suf true fs = .ok (r, fs2, i)) :
    fs2.load (.k_true it suf) = some r := by
  unfold get_true_kappa at h
  cases hl : fs.load (.k_true it suf) with
  | some v =>
    rw [hl] at h
    simp only [Except.ok.injEq, Prod.mk.injEq] at h
    rw [← h.2.1, ← h.1]
    exact hl
  | none =>
    rw [hl] at h
    cases hf : fillBatches (trueRowVal c it) c.bs 0
        (numFullBatches (if it then c.n_train else c.n_val) c.bs)
        (List.replicate c.n_val none) with
    | error e =>
      rw [show (do
            let loaderN := if it then c.n_train else c.n_val
            let rows ← fillBatches (trueRowVal c it) c.bs 0
                (numFullBatches loaderN c.bs) (List.replicate c.n_val none)
            let v := trueFinalize rows c.Y_dim
            Except.ok (v, if true then fs.save (.k_true it suf) v else fs, true) :
          Except String (NpVal × FS × Bool)) = .error e from by
        simp [hf, Bind.bind, Except.bind]] at h
      exact absurd h (by simp)
    | ok rows =>
      rw [show (do
            let loaderN := if it then c.n_train else c.n_val
            let rows ← fillBatches (trueRowVal c it) c.bs 0
                (numFullBatches loaderN c.bs) (List.replicate c.n_val none)
            let v := trueFinalize rows c.Y_dim
            Except.ok (v, if true then fs.save (.k_true it suf) v else fs, true) :
          Except String (NpVal × FS × Bool)) =
          .ok (trueFinalize rows c.Y_dim,
            fs.save (.k_true it suf) (trueFinalize rows c.Y_dim), true) from by
        simp [hf, Bind.bind, Except.bind]] at h
      simp only [Except.ok.injEq, Prod.mk.injEq] at h
      rw [← h.2.1, ← h.1]
      exact FS.load_save_same fs _ _

theorem get_true_kappa_miss (c : Ctx) (it sv : Bool) (suf : String) (fs : FS)
    (rows : List (Option (List ℚ)))
    (hl : fs.load (.k_true it suf) = none)
    (hf : fillBatches (trueRowVal c it) c.bs 0
        (numFullBatches (if it then c.n_train else c.n_val) c.bs)
        (List.replicate c.n_val none) = .ok rows) :
    get_true_kappa c it suf sv fs =
      .ok (trueFinalize rows c.Y_dim,
        if sv then fs.save (.k_true it suf) (trueFinalize rows c.Y_dim) else fs, true) := by
  simp [get_true_kappa, hl, hf, Bind.bind, Except.bind]

theorem get_true_kappa_ok_inv (c : Ctx) (it sv : Bool) (suf : String) (fs : FS)
    (r : NpVal) (fs2 : FS) (i : Bool)
    (h : get_true_kappa c it suf sv fs = .ok (r, fs2, i)) :
    (fs.load (.k_true it suf) = some r ∧ fs2 = fs ∧ i = false) ∨
    (fs.load (.k_true it suf) = none ∧
      fs2 = (if sv then fs.save (.k_true it suf) r else fs) ∧ i = true) := by
  cases hl : fs.load (.k_true it suf) with
  | some v =>
    rw [get_true_kappa_cached c it sv suf fs v hl] at h
    simp only [Except.ok.injEq, Prod.mk.injEq] at h
    exact Or.inl ⟨by rw [h.1], h.2.1.symm, h.2.2.symm⟩
  | none =>
    cases hf : fillBatches (trueRowVal c it) c.bs 0
        (numFullBatches (if it then c.n_train else c.n_val) c.bs)
        (List.replicate c.n_val none) with
    | error e =>
      exfalso
      rw [show get_true_kappa c it suf sv fs = .error e from by
        simp [get_true_kappa, hl, hf, Bind.bind, Except.bind]] at h
      exact absurd h (by simp)
    | ok rows =>
      rw [get_true_kappa_miss c it sv suf fs rows hl hf] at h
      simp only [Except.ok.injEq, Prod.mk.injEq] at h
      refine Or.inr ⟨rfl, ?_, h.2.2.symm⟩
      rw [← h.1]
      exact h.2.1.symm

theorem get_true_kappa_preserves (c : Ctx) (it sv : Bool) (suf : String) (fs : FS)
    (r : NpVal) (fs2 : FS) (i : Bool) (p : CachePath)
    (h : get_true_kappa c it suf sv fs = .ok (r, fs2, i))
    (hp : p ≠ .k_true it suf) : fs2.load p = fs.load p := by
  rcases get_true_kappa_ok_inv c it sv suf fs r fs2 i h with ⟨-, rfl, -⟩ | ⟨-, rfl, -⟩
  · rfl
  · cases sv with
    | false => simp
    | true =>
      simp only [if_true]
      exact FS.load_save_ne fs p _ r (Ne.symm hp)

theorem get_log_p_cached (c : Ctx) (ns nmc : ℕ) (fs : FS) (v : NpVal)
    (h : fs.load .log_p_k_given_omega_int = some v) :
    get_log_p_k_given_omega_int c ns nmc fs = .ok (v, fs, false) := by
  simp [get_log_p_k_given_omega_int, h]

theorem get_log_p_ok_facts (c : Ctx) (ns nmc : ℕ) (fs : FS) (r : NpVal) (fs2 : FS) (i : Bool)
    (h : get_log_p_k_given_omega_int c ns nmc fs = .ok (r, fs2, i)) :
    fs2.load .log_p_k_given_omega_int = some r ∧
    (∀ kb, fs.load .k_bnn = some kb → fs2.load .k_bnn = some kb) := by
  unfold get_log_p_k_given_omega_int at h
  cases hl : fs.load .log_p_k_given_omega_int with
  | some v =>
    rw [hl] at h
    simp only [Except.ok.injEq, Prod.mk.injEq] at h
    constructor
    · rw [← h.2.1, ← h.1]; exact hl
    · intro kb hkb; rw [← h.2.1]; exact hkb
  | none =>
    rw [hl] at h
    cases ht : get_true_kappa c true "" true fs with
    | error e =>
      exfalso
      rw [ht] at h
      exact absurd h (by simp [Bind.bind, Except.bind])
    | ok kt3 =>
      obtain ⟨kt, fsA, iA⟩ := kt3
      rw [ht] at h
      cases hb : get_bnn_kappa c ns nmc fsA with
      | error e =>
        exfalso
        rw [show (do
              let x ← (Except.ok (kt, fsA, iA) : Except String (NpVal × FS × Bool))
              match x with
              | (k_train, fs1, _) => do
                let y ← get_bnn_kappa c ns nmc fs1
                match y with
                | (k_bnn, fs2x, _) =>
                  let v := c.ratioFn k_train.squeeze k_bnn.squeeze
                  Except.ok (v, fs2x.save .log_p_k_given_omega_int v, true) :
            Except String (NpVal × FS × Bool)) = .error e from by
          simp [hb, Bind.bind, Except.bind]] at h
        exact absurd h (by simp)
      | ok kb3 =>
        obtain ⟨kb2, fsB, iB⟩ := kb3
        rw [show (do
              let x ← (Except.ok (kt, fsA, iA) : Except String (NpVal × FS × Bool))
              match x with
              | (k_train, fs1, _) => do
                let y ← get_bnn_kappa c ns nmc fs1
                match y with
                | (k_bnn, fs2x, _) =>
                  let v := c.ratioFn k_train.squeeze k_bnn.squeeze
                  Except.ok (v, fs2x.save .log_p_k_given_omega_int v, true) :
            Except String (NpVal × FS × Bool)) =
            .ok (c.ratioFn kt.squeeze kb2.squeeze,
              fsB.save .log_p_k_given_omega_int (c.ratioFn kt.squeeze kb2.squeeze), true)
          from by simp [hb, Bind.bind, Except.bind]] at h
        simp only [Except.ok.injEq, Prod.mk.injEq] at h
        constructor
        · rw [← h.2.1, ← h.1]
          exact FS.load_save_same fsB _ _
        · intro kb hkb
          have hA : fsA.load .k_bnn = some kb := by
            rw [get_true_kappa_preserves c true true "" fs kt fsA iA .k_bnn ht (by simp)]
            exact hkb
          have hB : fsB.load .k_bnn = some kb := by
            rw [get_bnn_kappa_cached c ns nmc fsA kb hA] at hb
            simp only [Except.ok.injEq, Prod.mk.injEq] at hb
            rw [← hb.2.1]
            exact hA
          rw [← h.2.1]
          rw [FS.load_save_ne fsB .k_bnn .log_p_k_given_omega_int _ (by simp)]
          exact hB

theorem get_kappa_log_weights_ok_inv (c : Ctx) (idx ns nmc : ℕ) (fs : FS)
    (r : NpVal) (fs2 : FS) (i : Bool)
    (h : get_kappa_log_weights c idx ns nmc fs = .ok (r, fs2, i)) :
    ∃ (kb lp : NpVal) (fsB : FS),
      fs2 = fsB.save (.log_weights idx) r ∧ i = true ∧
      fsB.load .k_bnn = some kb ∧ fsB.load .log_p_k_given_omega_int = some lp ∧
      r = c.lwFn (kb.item idx) c.mcmcSamples (lp.item idx) := by
  unfold get_kappa_log_weights at h
  cases hb : get_bnn_kappa c ns nmc fs with
  | error e =>
    rw [hb] at h
    exact absurd h (by simp [Bind.bind, Except.bind])
  | ok kb3 =>
    obtain ⟨kb, fsA, iA⟩ := kb3
    rw [hb] at h
    simp only [Bind.bind, Except.bind] at h
    cases hp : get_log_p_k_given_omega_int c ns nmc fsA with
    | error e =>
      rw [hp] at h
      exact absurd h (by simp)
    | ok lp3 =>
      obtain ⟨lp, fsB, iB⟩ := lp3
      rw [hp] at h
      simp only [Except.ok.injEq, Prod.mk.injEq] at h
      refine ⟨kb, lp, fsB, ?_, h.2.2.symm, ?_, ?_, h.1.symm⟩
      · rw [← h.2.1, ← h.1]
      · exact (get_log_p_ok_facts c ns nmc fsA lp fsB iB hp).2 kb
          (get_bnn_kappa_ok_load c ns nmc fs kb fsA iA hb)
      · exact (get_log_p_ok_facts c ns nmc fsA lp fsB iB hp).1

theorem get_kappa_log_weights_second (c : Ctx) (idx ns nmc : ℕ) (fs : FS)
    (r : NpVal) (fs2 : FS) (i : Bool)
    (h : get_kappa_log_weights c idx ns nmc fs = .ok (r, fs2, i)) :
    i = true ∧
    get_kappa_log_weights c idx ns nmc fs2 =
      .ok (r, fs2.save (.log_weights idx) r, true) := by
  obtain ⟨kb, lp, fsB, rfl, hi, hkb, hlp, hr⟩ :=
    get_kappa_log_weights_ok_inv c idx ns nmc fs r fs2 i h
  refine ⟨hi, ?_⟩
  have hkb2 : (fsB.save (.log_weights idx) r).load .k_bnn = some kb := by
    rw [FS.load_save_ne fsB .k_bnn (.log_weights idx) r (by simp)]
    exact hkb
  have hlp2 : (fsB.save (.log_weights idx) r).load .log_p_k_given_omega_int = some lp := by
    rw [FS.load_save_ne fsB .log_p_k_given_omega_int (.log_weights idx) r (by simp)]
    exact hlp
  rw [show get_kappa_log_weights c idx ns nmc (fsB.save (.log_weights idx) r) =
      .ok (c.lwFn (kb.item idx) c.mcmcSamples (lp.item idx),
        (fsB.save (.log_weights idx) r).save (.log_weights idx)
          (c.lwFn (kb.item idx) c.mcmcSamples (lp.item idx)), true) from by
    simp [get_kappa_log_weights, get_bnn_kappa_cached c ns nmc _ kb hkb2,
      get_log_p_cached c ns nmc _ lp hlp2, Bind.bind, Except.bind]]
  rw [← hr]

/-- C1 (amended): get_bnn_kappa, get_true_kappa (with its default
save=True) and get_log_p_k_given_omega_int each check for an existing
artifact at their key's path before recomputing, so a second call from the
state left by the first returns the identical array without invoking the
computation again; get_kappa_log_weights however computes its output path
but never checks it — both calls return the identical array, but the
weight computation is invoked again on every call (Bool component true),
so for it the computation is not invoked at most once. -/
theorem cache_idempotence_amended (c : Ctx) (ns nmc idx : ℕ) (it : Bool) (suf : String)
    (fs : FS) (r1 r2 r3 r4 : NpVal) (f1 f2 f3 f4 : FS) (i1 i2 i3 i4 : Bool) :
    (get_bnn_kappa c ns nmc fs = .ok (r1, f1, i1) →
      get_bnn_kappa c ns nmc f1 = .ok (r1, f1, false)) ∧
    (get_true_kappa c it suf true fs = .ok (r2, f2, i2) →
      get_true_kappa c it suf true f2 = .ok (r2, f2, false)) ∧
    (get_log_p_k_given_omega_int c ns nmc fs = .ok (r3, f3, i3) →
      get_log_p_k_given_omega_int c ns nmc f3 = .ok (r3, f3, false)) ∧
    (get_kappa_log_weights c idx ns nmc fs = .ok (r4, f4, i4) →
      i4 = true ∧
      get_kappa_log_weights c idx ns nmc f4 =
        .ok (r4, f4.save (.log_weights idx) r4, true)) := by
  refine ⟨?_, ?_, ?_, ?_⟩
  · intro h
    exact get_bnn_kappa_cached c ns nmc f1 r1 (get_bnn_kappa_ok_load c ns nmc fs r1 f1 i1 h)
  · intro h
    exact get_true_kappa_cached c it true suf f2 r2
      (get_true_kappa_ok_load c it suf fs r2 f2 i2 h)
  · intro h
    exact get_log_p_cached c ns nmc f3 r3 (get_log_p_ok_facts c ns nmc fs r3 f3 i3 h).1
  · intro h
    exact get_kappa_log_weights_second c idx ns nmc fs r4 f4 i4 h

theorem cache_idempotence_amended_witness :
    (get_bnn_kappa cW 1 1 fsAll = .ok (vB, fsAll, false)) ∧
    (get_true_kappa cW true "" true fsAll = .ok (vT, fsAll, false)) ∧
    (get_log_p_k_given_omega_int cW 1 1 fsAll = .ok (v3, fsAll, false)) ∧
    (true = true ∧
      get_kappa_log_weights cW 0 1 1 (fsAll.save (.log_weights 0) (NpVal.item vB 0)) =
        .ok (NpVal.item vB 0,
          (fsAll.save (.log_weights 0) (NpVal.item vB 0)).save (.log_weights 0)
            (NpVal.item vB 0), true)) := by
  have h := cache_idempotence_amended cW 1 1 0 true "" fsAll vB vT v3 (NpVal.item vB 0)
    fsAll fsAll fsAll (fsAll.save (.log_weights 0) (NpVal.item vB 0)) false false false true
  exact ⟨h.1 (by decide), h.2.1 (by decide), h.2.2.1 (by decide), h.2.2.2 (by decide)⟩

/-- C1 counterexample: with every upstream artifact cached — including a
pre-existing log_weights_0.npy — two successive calls of
get_kappa_log_weights with the same key both run the weight computation
(the invocation flag is true on both calls): the computation is invoked
twice, not at most once, because the operation never checks its output
path for an existing artifact. -/
theorem get_kappa_log_weights_recomputes_cex :
    (get_kappa_log_weights cW 0 1 1 fsAll =
      .ok (NpVal.item vB 0, fsAll.save (.log_weights 0) (NpVal.item vB 0), true)) ∧
    (get_kappa_log_weights cW 0 1 1 (fsAll.save (.log_weights 0) (NpVal.item vB 0)) =
      .ok (NpVal.item vB 0,
        (fsAll.save (.log_weights 0) (NpVal.item vB 0)).save (.log_weights 0)
          (NpVal.item vB 0), true)) := by
  exact ⟨by decide, by decide⟩

theorem getD_range_map {α : Type} (f : ℕ → α) (n i : ℕ) (d : α) (h : i < n) :
    ((List.range n).map f).getD i d = f i := by
  rw [List.getD_eq_getElem?_getD, List.getElem?_map, List.getElem?_range h]
  rfl

theorem fillBatches_filled {α : Type} (blk : ℕ → α) (bs : ℕ) :
    ∀ (k i r : ℕ),
      fillBatches blk bs i k
        ((List.range (i * bs)).map (fun e => some (blk e)) ++
          List.replicate (k * bs + r) none)
      = .ok ((List.range ((i + k) * bs)).map (fun e => some (blk e)) ++
          List.replicate r none) := by
  intro k
  induction k with
  | zero => intro i r; simp [fillBatches]
  | succ k ih =>
    intro i r
    set F := (List.range (i * bs)).map (fun e => some (blk e)) with hF
    have hFlen : F.length = i * bs := by simp [hF]
    set vals := (List.range bs).map (fun b => blk (i * bs + b)) with hvals
    have hvlen : vals.length = bs := by simp [hvals]
    have hlen : (F ++ List.replicate ((k + 1) * bs + r) (none : Option α)).length
        = i * bs + ((k + 1) * bs + r) := by simp [hFlen]
    have hbound : i * bs + vals.length ≤
        (F ++ List.replicate ((k + 1) * bs + r) (none : Option α)).length := by
      rw [hvlen, hlen]
      have : bs ≤ (k + 1) * bs + r := by
        calc bs = 1 * bs := (one_mul bs).symm
          _ ≤ (k + 1) * bs := Nat.mul_le_mul_right _ (by omega)
          _ ≤ (k + 1) * bs + r := Nat.le_add_right _ _
      omega
    have htake : (F ++ List.replicate ((k + 1) * bs + r) (none : Option α)).take (i * bs)
        = F := by
      rw [← hFlen]
      exact List.take_left F _
    have hdrop : (F ++ List.replicate ((k + 1) * bs + r) (none : Option α)).drop
        (i * bs + vals.length) = List.replicate (k * bs + r) none := by
      rw [hvlen, ← hFlen]
      rw [show List.replicate ((k + 1) * bs + r) (none : Option α)
          = List.replicate bs none ++ List.replicate (k * bs + r) none from by
        rw [← List.replicate_add]
        congr 1
        ring]
      rw [← List.append_assoc]
      have : (F ++ List.replicate bs (none : Option α)).length = F.length + bs := by simp
      rw [show F.length + bs = (F ++ List.replicate bs (none : Option α)).length from
        this.symm]
      exact List.drop_left _ _
    have hmerge : F ++ vals.map some
        = (List.range ((i + 1) * bs)).map (fun e => some (blk e)) := by
      rw [hF, hvals, show (i + 1) * bs = i * bs + bs from by ring, List.range_add,
        List.map_append, List.map_map, List.map_map]
      rfl
    rw [show fillBatches blk bs i (k + 1)
          (F ++ List.replicate ((k + 1) * bs + r) none)
        = (npSliceAssign (F ++ List.replicate ((k + 1) * bs + r) none) (i * bs) vals
            >>= fun rows2 => fillBatches blk bs (i + 1) k rows2) from rfl]
    rw [npSliceAssign_ok _ _ _ hbound]
    simp only [Bind.bind, Except.bind]
    rw [htake, hdrop, hmerge]
    rw [ih (i + 1) r]
    rw [show i + 1 + k = i + (k + 1) from by omega]

theorem bnnFinalize_full (c : Ctx) (ns nmc : ℕ) :
    bnnFinalize ((List.range c.n_val).map (fun e => some (mcBlock c.head nmc ns c.Y_dim e)))
      nmc ns c.Y_dim = bnnFull c ns nmc := by
  unfold bnnFinalize bnnFull
  rw [List.map_map]
  congr 1
  apply List.map_congr_left
  intro e he
  simp only [Function.comp]
  congr 1
  apply List.map_congr_left
  intro t ht
  congr 1
  apply List.map_congr_left
  intro j hj
  rw [List.mem_range] at hj ht
  congr 1
  have hns : 0 < ns := by
    rcases Nat.eq_zero_or_pos ns with h0 | h
    · rw [h0, Nat.mul_zero] at hj; omega
    · exact h
  have hdiv : j / ns < nmc := by
    rw [Nat.div_lt_iff_lt_mul hns]
    exact hj
  have hmod : j % ns < ns := Nat.mod_lt _ hns
  unfold mcBlock
  rw [getD_range_map _ _ _ _ hdiv, getD_range_map _ _ _ _ hmod]
  rw [List.get?_eq_getElem?, List.getElem?_map, List.getElem?_range ht]
  rfl

theorem bnnBody_full (c : Ctx) (ns nmc : ℕ) (hdvd : c.bs ∣ c.n_val) :
    bnnBody c ns nmc = .ok (bnnFull c ns nmc) := by
  have hfill := fillBatches_filled (mcBlock c.head nmc ns c.Y_dim) c.bs
    (numFullBatches c.n_val c.bs) 0 0
  simp only [Nat.zero_mul, List.range_zero, List.map_nil, List.nil_append, Nat.add_zero,
    Nat.zero_add, List.replicate_zero, List.append_nil, numFullBatches,
    Nat.div_mul_cancel hdvd] at hfill
  rw [show bnnBody c ns nmc = (fillBatches (mcBlock c.head nmc ns c.Y_dim) c.bs 0
      (numFullBatches c.n_val c.bs) (List.replicate c.n_val none) >>=
      fun rows => .ok (bnnFinalize rows nmc ns c.Y_dim)) from rfl]
  simp only [numFullBatches]
  rw [hfill]
  simp only [Bind.bind, Except.bind]
  rw [bnnFinalize_full]

/-- C2 (amended): when the batch size divides the number of test examples
(the val loader uses drop_last=True, so otherwise the remainder examples
are dropped), get_bnn_kappa with a cold cache accumulates one sampled
block per example over the batches in loader order and returns the
transposed-and-merged array bnnFull of shape
[n_val][Y_dim][n_mc_dropout * n_samples] in which every cell of every row
holds a sampled value. -/
theorem get_bnn_kappa_full_when_divides (c : Ctx) (ns nmc : ℕ) (fs : FS)
    (hdvd : c.bs ∣ c.n_val) (hnc : fs.load .k_bnn = none) :
    get_bnn_kappa c ns nmc fs =
      .ok (bnnFull c ns nmc, fs.save .k_bnn (bnnFull c ns nmc), true) := by
  rw [show get_bnn_kappa c ns nmc fs = (match fs.load .k_bnn with
      | some v => .ok (v, fs, false)
      | none => bnnBody c ns nmc >>= fun v => .ok (v, fs.save .k_bnn v, true)) from rfl]
  rw [hnc, bnnBody_full c ns nmc hdvd]
  rfl

theorem get_bnn_kappa_full_when_divides_witness :
    get_bnn_kappa cW 1 1 fsEmpty =
      .ok (bnnFull cW 1 1, fsEmpty.save .k_bnn (bnnFull cW 1 1), true) :=
  get_bnn_kappa_full_when_divides cW 1 1 fsEmpty (by decide) (by decide)

/-- C2 counterexample: with n_test = 3 and batch_size = 2 the returned
array has the claimed 3 rows, and row 0 holds its sampled value, but row 2
holds no sampled value at all — the example was dropped by the
drop_last=True loader and its row is uninitialized np.empty memory — so
not every row of the returned array holds sampled values. -/
theorem get_bnn_kappa_unfilled_row_cex :
    ((get_bnn_kappa cCex 1 1 fsEmpty).map (fun r => NpVal.numRows r.1) = .ok 3) ∧
    ((get_bnn_kappa cCex 1 1 fsEmpty).map (fun r => NpVal.cell3 r.1 0 0 0) = .ok (some 0)) ∧
    ((get_bnn_kappa cCex 1 1 fsEmpty).map (fun r => NpVal.cell3 r.1 2 0 0) = .ok none) :=
  ⟨by decide, by decide, by decide⟩

/-- C3 (code bug): get_true_kappa(is_train=True) allocates its output with
n_test = len(self.val_dataset) rows even on the train branch.  With
n_train = 2, n_val = 4 and batch_size = 2 the returned array has 4 rows,
not the claimed [n_train, n_targets] = [2, 1]: the single train batch
fills rows 0 and 1 and rows 2 and 3 remain uninitialized np.empty memory,
so the TrueLabelArray has neither the claimed shape nor one row per
training example. -/
theorem get_true_kappa_val_alloc_bug :
    ((get_true_kappa cC3 true "" true fsEmpty).map (fun r => NpVal.numRows r.1) = .ok 4) ∧
    ((get_true_kappa cC3 true "" true fsEmpty).map (fun r => NpVal.cell2 r.1 3 0) = .ok none) ∧
    cC3.n_train = 2 :=
  ⟨by decide, by decide, by decide⟩

/-- C8 counterexample: evaluated on a concrete state, the value
run_mcmc_for_omega_post hands back to its caller is None — the Python
function body ends without a return statement — not the
OmegaPosteriorSamples. -/
theorem run_mcmc_returns_none_cex :
    (run_mcmc_for_omega_post cW 1 1 none none fsAll).map (fun r => r.1) = .ok none := by
  decide

/-- C8 (amended): run_mcmc_for_omega_post computes k_bnn and
log_p_k_given_omega_int and invokes iutils.get_omega_post on them with the
bounds, but its Python return value is None — the omega posterior samples
are not returned to the caller; they are read separately from the
persisted chain artifact via iutils.get_mcmc_samples(chain_path). -/
theorem run_mcmc_for_omega_post_returns_none (c : Ctx) (ns nmc : ℕ)
    (bl bu : Option ℚ) (fs : FS) (r : Option NpVal × MCMCCall × FS)
    (h : run_mcmc_for_omega_post c ns nmc bl bu fs = .ok r) :
    r.1 = none ∧ r.2.1.bounds_lower = bl ∧ r.2.1.bounds_upper = bu := by
  unfold run_mcmc_for_omega_post at h
  cases hb : get_bnn_kappa c ns nmc fs with
  | error e =>
    rw [hb] at h
    exact absurd h (by simp [Bind.bind, Except.bind])
  | ok kb3 =>
    obtain ⟨kb, fsA, iA⟩ := kb3
    rw [hb] at h
    simp only [Bind.bind, Except.bind] at h
    cases hp : get_log_p_k_given_omega_int c ns nmc fsA with
    | error e =>
      rw [hp] at h
      exact absurd h (by simp)
    | ok lp3 =>
      obtain ⟨lp, fsB, iB⟩ := lp3
      rw [hp] at h
      simp only [Except.ok.injEq] at h
      rw [← h]
      exact ⟨rfl, rfl, rfl⟩

theorem run_mcmc_for_omega_post_returns_none_witness :
    ((none, ⟨vB, v3, none, none⟩, fsAll) : Option NpVal × MCMCCall × FS).1 = none ∧
    ((none, ⟨vB, v3, none, none⟩, fsAll) :
      Option NpVal × MCMCCall × FS).2.1.bounds_lower = none ∧
    ((none, ⟨vB, v3, none, none⟩, fsAll) :
      Option NpVal × MCMCCall × FS).2.1.bounds_upper = none :=
  run_mcmc_for_omega_post_returns_none cW 1 1 none none fsAll _ (by decide)

theorem not_mem_eraseIdx_of_nodup (l : List ℕ) (i : ℕ) (hi : i < l.length)
    (hnd : l.Nodup) : l.getD i 0 ∉ l.eraseIdx i := by
  intro hmem
  set a := l.getD i 0 with ha
  have hgetElem : l[i] = a := by
    rw [ha, List.getD_eq_getElem?_getD, List.getElem?_eq_getElem hi]
    rfl
  have h1 : List.count a l ≤ 1 := List.nodup_iff_count_le_one.mp hnd _
  have hdrop : List.drop i l = a :: List.drop (i + 1) l := by
    rw [← hgetElem]
    exact List.drop_eq_getElem_cons hi
  have hc : List.count a l
      = List.count a (l.take i) + (List.count a (l.drop (i + 1)) + 1) := by
    conv_lhs => rw [← List.take_append_drop i l]
    rw [List.count_append, hdrop, List.count_cons_self]
  have hc2 : 0 < List.count a (l.eraseIdx i) := List.count_pos_iff.mpr hmem
  rw [List.eraseIdx_eq_take_drop_succ, List.count_append] at hc2
  omega

theorem pickLoop_spec :
    ∀ (size s : ℕ) (pool : List ℕ), size ≤ pool.length → pool.Nodup →
      (pickLoop s pool size).length = size ∧ (pickLoop s pool size).Nodup ∧
      ∀ x ∈ pickLoop s pool size, x ∈ pool := by
  intro size
  induction size with
  | zero => intro s pool _ _; exact ⟨rfl, List.nodup_nil, by simp [pickLoop]⟩
  | succ k ih =>
    intro s pool hsz hnd
    have hpos : 0 < pool.length := by omega
    have hne : ¬(pool.length = 0) := by omega
    have hi : s % pool.length < pool.length := Nat.mod_lt _ hpos
    have hlen_e : (pool.eraseIdx (s % pool.length)).length = pool.length - 1 := by
      rw [List.length_eraseIdx]
      simp [hi]
    have hnd_e : (pool.eraseIdx (s % pool.length)).Nodup :=
      (List.eraseIdx_sublist pool (s % pool.length)).nodup hnd
    obtain ⟨ihl, ihnd, ihsub⟩ := ih (lcgNext s) (pool.eraseIdx (s % pool.length))
      (by omega) hnd_e
    have hunfold : pickLoop s pool (k + 1) = pool.getD (s % pool.length) 0 ::
        pickLoop (lcgNext s) (pool.eraseIdx (s % pool.length)) k := by
      rw [pickLoop, if_neg hne]
    rw [hunfold]
    refine ⟨by simp [ihl], ?_, ?_⟩
    · rw [List.nodup_cons]
      exact ⟨fun hmem => not_mem_eraseIdx_of_nodup pool _ hi hnd (ihsub _ hmem), ihnd⟩
    · intro x hx
      rcases List.mem_cons.mp hx with rfl | hx2
      · rw [List.getD_eq_getElem?_getD, List.getElem?_eq_getElem hi]
        exact List.getElem_mem _
      · exact (List.eraseIdx_sublist pool _).subset (ihsub _ hx2)

/-- C10: reset_val_dataset is deterministic independently of the manager's
configured seed: the random generator is constructed with the literal
constant seed 123, so two runs with different manager seeds but the same
test-set labels (here, the same cached k_valorig artifact yv),
subsample_pdf_func and n_val, with no pre-existing subsample_idx.npy,
select the same subsample indices; the selected indices are n_val_sub
distinct values drawn without replacement from the test-set index range. -/
theorem reset_val_dataset_deterministic (c : Ctx) (seed1 seed2 : ℕ)
    (pdfFn kdeFn : List (Option ℚ) → List ℚ) (n_val_sub : ℕ) (fs : FS) (yv : NpVal)
    (idx : List ℕ) (fs2 : FS)
    (hval : fs.load (.k_true false "orig") = some yv)
    (hlen : yv.squeeze.toFloatRow.length = c.n_val)
    (hnosub : fs.load .subsample_idx = none)
    (hsize : n_val_sub ≤ c.n_val)
    (hrun : reset_val_dataset c seed1 pdfFn kdeFn n_val_sub fs = .ok (idx, fs2)) :
    reset_val_dataset c seed2 pdfFn kdeFn n_val_sub fs = .ok (idx, fs2) ∧
    idx.length = n_val_sub ∧ idx.Nodup ∧ ∀ j ∈ idx, j < c.n_val := by
  have hdet : reset_val_dataset c seed2 pdfFn kdeFn n_val_sub fs
      = reset_val_dataset c seed1 pdfFn kdeFn n_val_sub fs := rfl
  have heval : reset_val_dataset c seed1 pdfFn kdeFn n_val_sub fs
      = .ok (pickLoop (lcgNext 123) (List.range c.n_val) n_val_sub,
          fs.save .subsample_idx
            (encodeIdx (pickLoop (lcgNext 123) (List.range c.n_val) n_val_sub))) := by
    unfold reset_val_dataset
    rw [get_true_kappa_cached c false true "orig" fs yv hval]
    simp only [Bind.bind, Except.bind]
    rw [hnosub, hlen]
    simp only [npChoiceNoReplace, if_pos hsize, Bind.bind, Except.bind]
  rw [heval] at hrun
  simp only [Except.ok.injEq, Prod.mk.injEq] at hrun
  obtain ⟨hidx, hfs2⟩ := hrun
  obtain ⟨hl, hnd, hsub⟩ := pickLoop_spec n_val_sub (lcgNext 123) (List.range c.n_val)
    (by simpa using hsize) (List.nodup_range _)
  subst hidx
  refine ⟨by rw [hdet, heval, hfs2], hl, hnd, ?_⟩
  intro j hj
  exact List.mem_range.mp (hsub j hj)

theorem reset_val_dataset_deterministic_witness :
    reset_val_dataset cC10 7 (fun _ => [1, 1, 1]) (fun _ => [1, 1, 1]) 2 fsW10 =
      .ok ([0, 2], fsW10.save .subsample_idx (encodeIdx [0, 2])) ∧
    ([0, 2] : List ℕ).length = 2 ∧ ([0, 2] : List ℕ).Nodup ∧
    ∀ j ∈ ([0, 2] : List ℕ), j < cC10.n_val :=
  reset_val_dataset_deterministic cC10 5 7 (fun _ => [1, 1, 1]) (fun _ => [1, 1, 1]) 2
    fsW10 vOrig [0, 2] (fsW10.save .subsample_idx (encodeIdx [0, 2]))
    (by decide) (by decide) (by decide) (by decide) (by decide)
